import Mathlib

/-!
Verification of the go-dotignore pattern matcher.

Shallow embedding of the repository code:
- package `internal`: `ReadLines` (BOM-stripping line reader) and `BuildRegex`
  (glob-to-regex translation).  The regex produced by `BuildRegex` is anchored
  (`^ ... $`) and built from the tokens `[^/]*` (for `*`), `[^/]` (for `?`),
  `(.*)?` (for `**` and `**/`), escaped literals (for `.` and `$`) and raw
  bytes (default and escape branch).  The compiled `*regexp.Regexp` is
  modelled in two stages mirroring the Go pipeline: `BuildRegex` is the
  emission loop, producing one token per emitted regex unit with raw bytes as
  literal tokens, and `regexpParse` is the interpretation that
  `regexp.Compile` gives to the emitted bytes, turning a raw `[`...`]` run
  into a character-class token (optional leading `^` negation, single
  characters and `lo-hi` ranges).  Whole-string matching over the resulting
  tokens is exact for the emitted regexes whose raw bytes are either plain or
  form such bracket expressions; other raw metacharacter bytes (for example
  `(`, `|`, `+`, or glob tokens inside a bracket) are outside the modelled
  fragment and remain literal tokens, and a malformed bracket expression,
  which makes `regexp.Compile` fail in Go (an error branch of
  `buildIgnorePatterns` that is not modelled), also stays literal.
- package `dotignore`: `buildIgnorePatterns`, `NewPatternMatcher`,
  `Matches`, `matchesInternal`, `matchPattern`, plus the `path/filepath`
  `Clean` function (Unix rules) used by `Matches`.

Go strings are modelled as `List Char`; the byte stream fed to `ReadLines`
is modelled as `List Nat` (byte values).
-/

/-- One token of the compiled regular expression: a literal character, the
glob tokens emitted by `internal.BuildRegex`, or a character class
`[...]`/`[^...]` given by a negation flag and a list of `lo-hi` ranges
(a single member `c` is the range `c-c`). -/
inductive GlobToken where
  | lit (c : Char)
  | star
  | qmark
  | anyseq
  | cls (neg : Bool) (ranges : List (Char × Char))
  deriving DecidableEq, Repr

/-- `internal.BuildRegex`: translate a glob pattern into the token list of the
emitted anchored regex.  Mirrors the byte loop of the Go source: `**`
(optionally followed by `/`) emits `(.*)?` (`anyseq`), a lone `*` emits
`[^/]*` (`star`), `?` emits `[^/]` (`qmark`), `.` and `$` are escaped to
match themselves, a backslash escapes the next byte (written directly into
the regex), a trailing backslash is escaped to a literal backslash, and every
other byte is written directly. -/
def BuildRegex : List Char → List GlobToken
  | [] => []
  | '*' :: '*' :: '/' :: rest => .anyseq :: BuildRegex rest
  | '*' :: '*' :: rest => .anyseq :: BuildRegex rest
  | '*' :: rest => .star :: BuildRegex rest
  | '?' :: rest => .qmark :: BuildRegex rest
  | '.' :: rest => .lit '.' :: BuildRegex rest
  | '$' :: rest => .lit '$' :: BuildRegex rest
  | '\\' :: c :: rest => .lit c :: BuildRegex rest
  | '\\' :: [] => [.lit '\\']
  | c :: rest => .lit c :: BuildRegex rest

/-- Parse the body of a bracket expression from the emitted token stream:
literal tokens up to the closing `]`, read as single members and `lo-hi`
ranges (a `-` directly before the closing `]` is a literal member, as in
`regexp`).  Fails (`none`) when the bracket is unterminated or its body
contains a non-literal token (a glob token emitted inside the brackets):
such patterns are outside the modelled fragment. -/
def parseClsItems : List GlobToken → Option (List (Char × Char) × List GlobToken)
  | [] => none
  | .lit ']' :: r => some ([], r)
  | .lit c1 :: .lit '-' :: .lit ']' :: r => some ([(c1, c1), ('-', '-')], r)
  | .lit c1 :: .lit '-' :: .lit c2 :: r =>
      match parseClsItems r with
      | none => none
      | some (items, r2) => some ((c1, c2) :: items, r2)
  | .lit c1 :: r =>
      match parseClsItems r with
      | none => none
      | some (items, r2) => some ((c1, c1) :: items, r2)
  | _ => none

/-- The bracket-expression interpretation performed by `regexp.Compile` on
the emitted regex: a raw `[` opening a well-formed class (optionally negated
with `^`) becomes a single class token; any other token, including a `[`
whose body cannot be read as a plain class, passes through unchanged.  The
fuel is the token-list length, which bounds the number of steps (every step
consumes at least one token). -/
def regexpParse : Nat → List GlobToken → List GlobToken
  | 0, ts => ts
  | _ + 1, [] => []
  | fuel + 1, t :: rest =>
      if t = GlobToken.lit '[' then
        match rest with
        | .lit '^' :: rest2 =>
            match parseClsItems rest2 with
            | some (items, r2) => .cls true items :: regexpParse fuel r2
            | none => .lit '[' :: regexpParse fuel rest
        | _ =>
            match parseClsItems rest with
            | some (items, r2) => .cls false items :: regexpParse fuel r2
            | none => .lit '[' :: regexpParse fuel rest
      else t :: regexpParse fuel rest

/-- The compiled regex of a pattern: the emission loop (`BuildRegex`)
followed by the bracket-expression interpretation of `regexp.Compile`. -/
def compiledRegex (p : List Char) : List GlobToken :=
  regexpParse (BuildRegex p).length (BuildRegex p)

/-- The tails of `s` reachable by dropping characters other than `/`
(the candidate remainders after `[^/]*` consumes a prefix). -/
def nonSlashTails : List Char → List (List Char)
  | [] => [[]]
  | c :: r => (c :: r) :: (if c = '/' then [] else nonSlashTails r)

/-- Whole-string matching of the anchored regex `^tokens$` against `s`
(the semantics of `regexp.MatchString` for the regexes built by
`internal.BuildRegex`). -/
def MatchString : List GlobToken → List Char → Bool
  | [], s => s.isEmpty
  | .lit c :: ts, s =>
      match s with
      | [] => false
      | d :: r => c == d && MatchString ts r
  | .qmark :: ts, s =>
      match s with
      | [] => false
      | d :: r => decide (d ≠ '/') && MatchString ts r
  | .cls neg ranges :: ts, s =>
      match s with
      | [] => false
      | d :: r =>
          (if neg then !(ranges.any (fun it => decide (it.1 ≤ d ∧ d ≤ it.2)))
           else ranges.any (fun it => decide (it.1 ≤ d ∧ d ≤ it.2))) && MatchString ts r
  | .star :: ts, s => (nonSlashTails s).any (fun r => MatchString ts r)
  | .anyseq :: ts, s => s.tails.any (fun r => MatchString ts r)

/-- `strings.Split(s, "/")`. -/
def splitSlash : List Char → List (List Char)
  | [] => [[]]
  | c :: r =>
      if c = '/' then [] :: splitSlash r
      else
        match splitSlash r with
        | [] => [[c]]
        | t :: ts => (c :: t) :: ts

/-- `strings.Join(parts, "/")`. -/
def joinSlash : List (List Char) → List Char
  | [] => []
  | [x] => x
  | x :: y :: ys => x ++ '/' :: joinSlash (y :: ys)

/-- `strings.Contains(s, substr)`. -/
def stringsContains (s substr : List Char) : Bool :=
  s.tails.any (fun t => substr.isPrefixOf t)

/-- `strings.ContainsAny(s, "*?")`. -/
def containsAnyWild (s : List Char) : Bool :=
  s.any (fun c => c == '*' || c == '?')

/-- ASCII whitespace recognised by `strings.TrimSpace`
(the inputs considered here are ASCII). -/
def isSpaceChar (c : Char) : Bool :=
  c == ' ' || c == '\t' || c == '\n' || c == '\r' ||
  c == Char.ofNat 11 || c == Char.ofNat 12

/-- `strings.TrimSpace`. -/
def trimSpace (s : List Char) : List Char :=
  ((s.dropWhile isSpaceChar).reverse.dropWhile isSpaceChar).reverse

/-- `strings.ReplaceAll(s, "\\", "/")`. -/
def replaceBackslashes (s : List Char) : List Char :=
  s.map (fun c => if c = '\\' then '/' else c)

/-- Convenience: characters of a string literal. -/
def chars (s : String) : List Char := s.data

/-!  `path/filepath.Clean` (Unix separator), used by `Matches` on the query
path.  The Go algorithm walks the path, skipping `/` and `.` elements,
backtracking on `..` (or keeping `..` for unrooted paths), and copying other
elements separated by single slashes.  The output buffer is modelled by the
accumulated list `out`; the write index `out.w` is `out.length`.  Recursion
is driven by a fuel parameter equal to the input length, which bounds the
number of loop iterations (each iteration consumes at least one input
character). -/

/-- The backtracking step for `..`: `out.w--` followed by
`for out.w > dotdot && out.index(out.w) != '/' { out.w-- }`.
Returns the final write index; fuel starts at `w + 1`. -/
def backtrackW (out : List Char) (dotdot : Nat) : Nat → Nat → Nat
  | 0, w => w
  | fuel + 1, w =>
      if w > dotdot ∧ out.getD w ' ' ≠ '/' then backtrackW out dotdot fuel (w - 1)
      else w

/-- Truncate `out` as the `..` case of `filepath.Clean` does. -/
def backtrack (out : List Char) (dotdot : Nat) : List Char :=
  out.take (backtrackW out dotdot out.length (out.length - 1))

/-- The main loop of `filepath.Clean`. -/
def cleanGo : Nat → List Char → Bool → List Char → Nat → List Char
  | 0, _, _, out, _ => out
  | _ + 1, [], _, out, _ => out
  | fuel + 1, c :: r, rooted, out, dotdot =>
      if c = '/' then
        cleanGo fuel r rooted out dotdot
      else if c = '.' ∧ (r = [] ∨ r.head? = some '/') then
        cleanGo fuel r rooted out dotdot
      else if c = '.' ∧ r.head? = some '.' ∧ (r.tail = [] ∨ r.tail.head? = some '/') then
        (if out.length > dotdot then
          cleanGo fuel r.tail rooted (backtrack out dotdot) dotdot
        else if rooted then
          cleanGo fuel r.tail rooted out dotdot
        else
          let out2 := (if out.length > 0 then out ++ ['/'] else out) ++ ['.', '.']
          cleanGo fuel r.tail rooted out2 out2.length)
      else
        let out2 :=
          if (rooted ∧ out.length ≠ 1) ∨ (¬rooted ∧ out.length ≠ 0) then out ++ ['/'] else out
        cleanGo fuel (r.dropWhile (fun x => x ≠ '/')) rooted
          (out2 ++ c :: r.takeWhile (fun x => x ≠ '/')) dotdot

/-- `filepath.Clean` (Unix rules; `FromSlash` is the identity). -/
def filepathClean (path : List Char) : List Char :=
  if path = [] then ['.']
  else
    let res :=
      if path.head? = some '/' then cleanGo path.length path.tail true ['/'] 1
      else cleanGo path.length path false [] 0
    if res = [] then ['.'] else res

/-!  The `dotignore` package. -/

/-- A compiled ignore pattern (`ignorePattern` in the source).  The compiled
`*regexp.Regexp` field is represented by the token list of the regex built by
`internal.BuildRegex` for the stored pattern text. -/
structure ignorePattern where
  pattern : List Char
  regexTokens : List GlobToken
  isDirectory : Bool
  negate : Bool
  hasWildcard : Bool
  deriving DecidableEq, Repr

/-- `PatternMatcher`. -/
structure PatternMatcher where
  ignorePatterns : List ignorePattern
  deriving DecidableEq, Repr

/-- The per-line computation of the `buildIgnorePatterns` loop body: trim,
strip a leading `!` (negation), replace backslashes by `/`, strip a trailing
`/` (directory-only), and compile the regex and flags from what remains. -/
def compileValid (line : List Char) : ignorePattern :=
  let p := trimSpace line
  let isNegation := p.head? = some '!'
  let p1 := if isNegation then p.tail else p
  let p2 := replaceBackslashes p1
  let isDirectory := p2.getLast? = some '/'
  let p3 := if isDirectory then p2.dropLast else p2
  { pattern := p3, regexTokens := compiledRegex p3, isDirectory := isDirectory,
    negate := isNegation, hasWildcard := containsAnyWild p3 }

/-- The loop of `buildIgnorePatterns`, with the 1-based line counter `i + 1`
appearing in error messages exactly as in the source (`for i, pattern := range`).
Lines are trimmed; empty and `#`-prefixed lines are skipped; a line that is a
single `!` is an error; a line whose pattern text is empty after the marker
stripping done by `compileValid` is an error; otherwise the line compiles to
`compileValid line`. -/
def buildIgnorePatternsGo : Nat → List (List Char) → Except String (List ignorePattern)
  | _, [] => .ok []
  | i, line :: rest =>
      let p := trimSpace line
      if p = [] ∨ p.head? = some '#' then
        buildIgnorePatternsGo (i + 1) rest
      else if p.head? = some '!' ∧ p.length = 1 then
        .error ("invalid pattern at line " ++ toString (i + 1) ++ ": single negation marker is not allowed")
      else if (compileValid line).pattern = [] then
        .error ("invalid pattern at line " ++ toString (i + 1) ++ ": pattern cannot be empty")
      else
        match buildIgnorePatternsGo (i + 1) rest with
        | .error e => .error e
        | .ok ps => .ok (compileValid line :: ps)

/-- `buildIgnorePatterns`. -/
def buildIgnorePatterns (patterns : List (List Char)) : Except String (List ignorePattern) :=
  buildIgnorePatternsGo 0 patterns

/-- `NewPatternMatcher`. -/
def NewPatternMatcher (patterns : List (List Char)) : Except String PatternMatcher :=
  match buildIgnorePatterns patterns with
  | .error e => .error ("failed to build ignore patterns: " ++ e)
  | .ok ps => .ok { ignorePatterns := ps }

/-- The decision logic of `matchPattern` (every return site of the source
function carries a `nil` error, so the decision is a pure boolean; the `||`
chain mirrors the sequence of early-`return true` blocks).  In order: the
regex test on the full path; the directory-only block; the wildcard block
(regex against every whole-segment suffix, then against the path re-joined at
every split point); the separator-containing block (exact equality, substring
containment, suffix tests); and the separator-free block (regex against each
path segment). -/
def matchPatternB (file : List Char) (p : ignorePattern) : Bool :=
  MatchString p.regexTokens file
  || (p.isDirectory &&
        (decide (file = p.pattern ++ ['/']) || decide (file = p.pattern)
          || (p.pattern ++ ['/']).isPrefixOf file))
  || (p.hasWildcard &&
        ((List.range (splitSlash file).length).any
            (fun i => MatchString p.regexTokens (joinSlash ((splitSlash file).drop i)))
          || (List.range (splitSlash file).length).any
              (fun i => decide (i ≠ 0) &&
                MatchString p.regexTokens
                  (joinSlash ((splitSlash file).take i) ++ '/' :: joinSlash ((splitSlash file).drop i)))))
  || (p.pattern.contains '/' &&
        (decide (file = p.pattern) || stringsContains file p.pattern
          || ('/' :: p.pattern).isSuffixOf file || p.pattern.isSuffixOf file))
  || (!p.pattern.contains '/' &&
        (splitSlash file).any (fun part => MatchString p.regexTokens part))

/-- `matchPattern`; the error component of the source return value is `nil`
at every return site. -/
def matchPattern (file : List Char) (p : ignorePattern) : Except String Bool :=
  .ok (matchPatternB file p)

/-- The loop of `matchesInternal`, threading the `matched` accumulator;
a pattern-evaluation error would abort the loop (mirrored branch). -/
def matchesInternalGo : List ignorePattern → List Char → Bool → Except String Bool
  | [], _, matched => .ok matched
  | p :: rest, file, matched =>
      match matchPattern file p with
      | .error e => .error ("error matching pattern against file: " ++ e)
      | .ok isMatch => matchesInternalGo rest file (if isMatch then !p.negate else matched)

/-- `matchesInternal`. -/
def matchesInternal (pats : List ignorePattern) (file : List Char) : Except String Bool :=
  matchesInternalGo pats file false

/-- `Matches`: empty-path guard, `filepath.Clean`, `.`/`./` guard, backslash
normalisation, then the evaluation loop. -/
def Matches (m : PatternMatcher) (file : List Char) : Except String Bool :=
  if file = [] then .ok false
  else
    let f1 := filepathClean file
    if f1 = chars "." ∨ f1 = chars "./" then .ok false
    else matchesInternal m.ignorePatterns (replaceBackslashes f1)

/-- Build a matcher from raw lines and run one query
(`NewPatternMatcher` followed by `Matches`). -/
def runMatcher (patterns : List (List Char)) (file : List Char) : Except String Bool :=
  match NewPatternMatcher patterns with
  | .error e => .error e
  | .ok m => Matches m file

/-!  `internal.ReadLines`.  The byte stream is modelled as `List Nat`.
`bufio.Scanner` with `ScanLines` splits at `\n` (byte 10), strips one
trailing `\r` (byte 13) from each line, returns a final unterminated line,
and produces no token for a terminating final newline. -/

/-- Split a byte list at newline bytes. -/
def splitNL : List Nat → List (List Nat)
  | [] => [[]]
  | b :: r =>
      if b = 10 then [] :: splitNL r
      else
        match splitNL r with
        | [] => [[b]]
        | t :: ts => (b :: t) :: ts

/-- `dropCR` of `bufio.ScanLines`: strip one trailing carriage return. -/
def dropCR (l : List Nat) : List Nat :=
  if l.getLast? = some 13 then l.dropLast else l

/-- The token sequence produced by `bufio.Scanner` with `ScanLines`. -/
def scanLines (data : List Nat) : List (List Nat) :=
  if data = [] then []
  else
    let parts := splitNL data
    let parts := if data.getLast? = some 10 then parts.dropLast else parts
    parts.map dropCR

/-- The UTF-8 byte-order mark. -/
def utf8BOM : List Nat := [0xEF, 0xBB, 0xBF]

/-- `bytes.TrimPrefix(line, utf8BOM)`. -/
def trimBOM (l : List Nat) : List Nat :=
  if utf8BOM.isPrefixOf l then l.drop 3 else l

/-- The scan loop of `ReadLines`: the BOM is trimmed exactly when the
line counter is zero. -/
def readLinesLoop : Nat → List (List Nat) → List (List Nat)
  | _, [] => []
  | n, l :: rest => (if n = 0 then trimBOM l else l) :: readLinesLoop (n + 1) rest

/-- `internal.ReadLines` (the successful, error-free path of the scanner). -/
def ReadLines (data : List Nat) : List (List Nat) := readLinesLoop 0 (scanLines data)

/-!  Claim-level helper definitions. -/

/-- The verdict of the last pattern in the list whose `matchPattern` test
succeeds on `file`, and `false` when no pattern matches (the property
claimed of `matchesInternal`). -/
def lastWins (pats : List ignorePattern) (file : List Char) : Bool :=
  match pats.reverse.find? (fun p => matchPatternB file p) with
  | some p => !p.negate
  | none => false

/-- A line is compiled (neither blank nor a comment) exactly when its trimmed
form is nonempty and does not start with `#`. -/
def isRealLine (line : List Char) : Bool :=
  !(decide (trimSpace line = []) || decide ((trimSpace line).head? = some '#'))

/-- The invalid-line condition of the claim: the trimmed line is exactly `!`,
or it carries a leading `!` and/or a trailing `/` and stripping those markers
leaves nothing. -/
def invalidLine (line : List Char) : Bool :=
  let t := trimSpace line
  decide (t = ['!']) ||
    ((decide (t.head? = some '!') || decide (t.getLast? = some '/')) &&
      decide ((let t1 := if t.head? = some '!' then t.tail else t;
               if t1.getLast? = some '/' then t1.dropLast else t1) = []))

/-!  Basic lemmas about the string utilities. -/

lemma joinSlash_cons (x : List Char) (ps : List (List Char)) (h : ps ≠ []) :
    joinSlash (x :: ps) = x ++ '/' :: joinSlash ps := by
  cases ps with
  | nil => exact absurd rfl h
  | cons y ys => rfl

lemma splitSlash_ne_nil (s : List Char) : splitSlash s ≠ [] := by
  cases s with
  | nil => simp [splitSlash]
  | cons c r =>
    by_cases hc : c = '/'
    · simp [splitSlash, hc]
    · cases h : splitSlash r with
      | nil => simp [splitSlash, hc, h]
      | cons t ts => simp [splitSlash, hc, h]

lemma joinSlash_splitSlash (s : List Char) : joinSlash (splitSlash s) = s := by
  induction s with
  | nil => rfl
  | cons c r ih =>
    by_cases hc : c = '/'
    · subst hc
      rw [show splitSlash ('/' :: r) = [] :: splitSlash r from by simp [splitSlash]]
      rw [joinSlash_cons _ _ (splitSlash_ne_nil r)]
      simp [ih]
    · cases h : splitSlash r with
      | nil => exact absurd h (splitSlash_ne_nil r)
      | cons t ts =>
        rw [show splitSlash (c :: r) = (c :: t) :: ts from by simp [splitSlash, hc, h]]
        cases ts with
        | nil =>
          have ht : t = r := by simpa [h, joinSlash] using ih
          simp [joinSlash, ht]
        | cons u us =>
          have ihr : t ++ '/' :: joinSlash (u :: us) = r := by
            simpa [h, joinSlash] using ih
          simp [joinSlash, ← ihr]

lemma joinSlash_take_drop :
    ∀ (ps : List (List Char)) (i : Nat), 0 < i → i < ps.length →
      joinSlash (ps.take i) ++ '/' :: joinSlash (ps.drop i) = joinSlash ps := by
  intro ps
  induction ps with
  | nil => intro i h1 h2; simp at h2
  | cons x ps ih =>
    intro i h1 h2
    match i, h1 with
    | 1, _ =>
      have hps : ps ≠ [] := by
        intro hnil
        subst hnil
        simp at h2
      simp only [List.take_succ_cons, List.take_zero, List.drop_succ_cons, List.drop_zero]
      rw [show joinSlash [x] = x from rfl, joinSlash_cons x ps hps]
    | j + 2, _ =>
      have hlt : j + 1 < ps.length := by
        simp at h2
        omega
      have hps : ps ≠ [] := by
        intro hnil
        subst hnil
        simp at hlt
      have htk : ps.take (j + 1) ≠ [] := by
        cases ps with
        | nil => simp at hlt
        | cons a as => simp [List.take]
      rw [List.take_succ_cons, List.drop_succ_cons]
      rw [joinSlash_cons x _ htk, List.append_assoc, List.cons_append]
      rw [ih (j + 1) (by omega) hlt, joinSlash_cons x ps hps]

lemma slash_mem_joinSlash {ps : List (List Char)} (h : 2 ≤ ps.length) :
    '/' ∈ joinSlash ps := by
  match ps, h with
  | x :: y :: ys, _ =>
    rw [show joinSlash (x :: y :: ys) = x ++ '/' :: joinSlash (y :: ys) from rfl]
    exact List.mem_append_right _ (List.mem_cons_self _ _)

lemma find?_append_cases {α : Type} (l1 l2 : List α) (p : α → Bool) :
    (l1 ++ l2).find? p =
      match l1.find? p with
      | some x => some x
      | none => l2.find? p := by
  induction l1 with
  | nil => simp
  | cons a l ih =>
    by_cases h : p a
    · simp [List.find?_cons_of_pos _ h]
    · simp [List.find?_cons_of_neg _ h, ih]

/-!  The evaluation loop: last-match-wins and absence of errors. -/

lemma matchesInternalGo_find (pats : List ignorePattern) (file : List Char) :
    ∀ acc, matchesInternalGo pats file acc =
      .ok (match pats.reverse.find? (fun p => matchPatternB file p) with
            | some p => !p.negate
            | none => acc) := by
  induction pats with
  | nil => intro acc; rfl
  | cons p rest ih =>
    intro acc
    rw [show matchesInternalGo (p :: rest) file acc =
          matchesInternalGo rest file (if matchPatternB file p then !p.negate else acc) from rfl]
    rw [ih]
    rw [List.reverse_cons, find?_append_cases]
    cases hf : rest.reverse.find? (fun q => matchPatternB file q) with
    | some q => simp
    | none =>
      by_cases hm : matchPatternB file p
      · simp [List.find?, hm]
      · simp [List.find?, hm]

lemma matchesInternalGo_isOk (pats : List ignorePattern) (file : List Char) :
    ∀ acc, (matchesInternalGo pats file acc).isOk = true := by
  induction pats with
  | nil => intro acc; rfl
  | cons p rest ih => intro acc; exact ih _

lemma readLinesLoop_of_pos : ∀ (rest : List (List Nat)) (n : Nat), n ≠ 0 →
    readLinesLoop n rest = rest := by
  intro rest
  induction rest with
  | nil => intro n _; rfl
  | cons l ls ih =>
    intro n hn
    rw [readLinesLoop, if_neg hn, ih (n + 1) (by omega)]

/-- Claim C1: `Matches` evaluates the compiled patterns in declared list order
with last-match-wins semantics: `matchesInternal` returns exactly the negated
`negate` flag of the last matching pattern (`false` when none matches), and
concretely the matcher built from `["*.txt", "!important.txt"]` rejects
`"important.txt"` while the reversed list accepts it. -/
theorem matches_lastMatchWins :
    (∀ (pats : List ignorePattern) (file : List Char),
        matchesInternal pats file = .ok (lastWins pats file)) ∧
    runMatcher [chars "*.txt", chars "!important.txt"] (chars "important.txt") = .ok false ∧
    runMatcher [chars "!important.txt", chars "*.txt"] (chars "important.txt") = .ok true := by
  refine ⟨?_, rfl, rfl⟩
  intro pats file
  rw [matchesInternal, lastWins]
  exact matchesInternalGo_find pats file false

/-- Claim C5 (code evaluation at the failing input): the matcher built from
the single pattern `a\*b` returns `false` for the literal path `a*b` (and for
`axb`), because `buildIgnorePatterns` replaces every backslash with `/`
before `BuildRegex` runs, turning the pattern into `a/*b`; the escape branch
of `BuildRegex` is unreachable from the compiler. -/
theorem escapedAsterisk_code_behavior :
    runMatcher [chars "a\\*b"] (chars "a*b") = .ok false ∧
    runMatcher [chars "a\\*b"] (chars "axb") = .ok false ∧
    (compileValid (chars "a\\*b")).pattern = chars "a/*b" ∧
    runMatcher [chars "a\\*b"] (chars "a/xb") = .ok true :=
  ⟨rfl, rfl, rfl, rfl⟩

/-- Claim C7: for every matcher and every query path, `Matches` returns a nil
error — the evaluation-failure branch of the per-pattern loop is unreachable,
since every return site of `matchPattern` carries a nil error. -/
theorem matches_never_errors :
    ∀ (m : PatternMatcher) (file : List Char), (Matches m file).isOk = true := by
  intro m file
  simp only [Matches]
  split
  · rfl
  · split
    · rfl
    · exact matchesInternalGo_isOk m.ignorePatterns _ false

/-- Claim C8: for every matcher, regardless of its patterns, `Matches "."` and
`Matches ""` return `false` with a nil error, without consulting any pattern. -/
theorem rootPath_guard :
    ∀ m : PatternMatcher,
      Matches m (chars ".") = .ok false ∧ Matches m (chars "") = .ok false :=
  fun _ => ⟨rfl, rfl⟩

/-- Claim C2 (counterexample): the pattern `src/test.txt` contains `/`, is not
a prefix of the query path `x/src/test.txt`, and its anchored regex does not
match that path — yet the pattern matches it (via the substring branch), and
the whole matcher returns `true`.  An occurrence starting at a strictly later
path segment does count as a match. -/
theorem slashPattern_midPath_counterexample :
    matchPattern (chars "x/src/test.txt") (compileValid (chars "src/test.txt")) = .ok true ∧
    (compileValid (chars "src/test.txt")).pattern.contains '/' = true ∧
    (compileValid (chars "src/test.txt")).pattern.isPrefixOf (chars "x/src/test.txt") = false ∧
    MatchString (compileValid (chars "src/test.txt")).regexTokens (chars "x/src/test.txt") = false ∧
    runMatcher [chars "src/test.txt"] (chars "x/src/test.txt") = .ok true :=
  ⟨rfl, rfl, rfl, rfl, rfl⟩

/-- Claim C10: `ReadLines` splits the byte stream at newlines and strips the
three-byte UTF-8 BOM from the first line only; every later line is returned
unchanged, so a BOM at the start of a later line survives (shown concretely
in the second conjunct). -/
theorem readLines_bom :
    (∀ data : List Nat,
        ReadLines data =
          match scanLines data with
          | [] => []
          | l :: rest => trimBOM l :: rest) ∧
    ReadLines [0xEF, 0xBB, 0xBF, 97, 10, 0xEF, 0xBB, 0xBF, 98] =
      [[97], [0xEF, 0xBB, 0xBF, 98]] := by
  refine ⟨?_, rfl⟩
  intro data
  rw [ReadLines]
  cases h : scanLines data with
  | nil => rfl
  | cons l rest =>
    rw [readLinesLoop, if_pos rfl, readLinesLoop_of_pos rest 1 (by omega)]

/-- Claim C3: a directory-only pattern matches the stored directory path
itself (with or without its trailing slash) and every path extending it
past a `/`; concretely `["build/"]` accepts `build/`, `build/out.js` and
`build/sub/out.js` and rejects `buildx/` and `other.js`. -/
theorem directoryPattern_cascade :
    (∀ (p : ignorePattern) (file : List Char),
        p.isDirectory = true →
        (file = p.pattern ∨ file = p.pattern ++ ['/'] ∨
          (p.pattern ++ ['/']).isPrefixOf file = true) →
        matchPattern file p = .ok true) ∧
    runMatcher [chars "build/"] (chars "build/") = .ok true ∧
    runMatcher [chars "build/"] (chars "build/out.js") = .ok true ∧
    runMatcher [chars "build/"] (chars "build/sub/out.js") = .ok true ∧
    runMatcher [chars "build/"] (chars "buildx/") = .ok false ∧
    runMatcher [chars "build/"] (chars "other.js") = .ok false := by
  refine ⟨?_, rfl, rfl, rfl, rfl, rfl⟩
  intro p file hdir hcase
  rcases hcase with h | h | h
  · simp [matchPattern, matchPatternB, hdir, h]
  · simp [matchPattern, matchPatternB, hdir, h]
  · simp [matchPattern, matchPatternB, hdir, h]

theorem directoryPattern_cascade_witness :
    matchPattern (chars "build/z/q.js") (compileValid (chars "build/")) = .ok true :=
  directoryPattern_cascade.1 (compileValid (chars "build/")) (chars "build/z/q.js")
    rfl (Or.inr (Or.inr rfl))

/-!  Substring behaviour of separator-containing patterns. -/

lemma isPrefixOf_self (l : List Char) : l.isPrefixOf l = true := by
  induction l with
  | nil => rfl
  | cons a as ih => simp [List.isPrefixOf, ih]

lemma stringsContains_of_contained {s n : List Char} (h : n <:+: s) :
    stringsContains s n = true := by
  obtain ⟨t, hpre, hsuf⟩ := List.infix_iff_prefix_suffix.mp h
  refine List.any_eq_true.mpr ⟨t, (List.mem_tails t s).mpr hsuf, ?_⟩
  simpa using hpre

/-- Claim C2 (amended rule, proved): for a separator-containing pattern with
no wildcard and no directory marker, `matchPattern` succeeds exactly when the
anchored regex matches the whole path or the pattern text occurs anywhere in
the path as a substring — non-prefix occurrences included. -/
theorem slashPattern_substring_rule :
    ∀ (file : List Char) (p : ignorePattern),
      p.isDirectory = false → p.hasWildcard = false → p.pattern.contains '/' = true →
      matchPattern file p =
        .ok (MatchString p.regexTokens file || stringsContains file p.pattern) := by
  intro file p hdir hw hc
  have hmem : '/' ∈ p.pattern := by simpa using hc
  rw [matchPattern]
  rw [show matchPatternB file p =
        (MatchString p.regexTokens file
          || (decide (file = p.pattern) || stringsContains file p.pattern
              || ('/' :: p.pattern).isSuffixOf file || p.pattern.isSuffixOf file)) from by
    simp [matchPatternB, hdir, hw, hmem]]
  cases hsc : stringsContains file p.pattern with
  | true => simp [hsc]
  | false =>
    have h1 : decide (file = p.pattern) = false := by
      rcases Decidable.eq_or_ne file p.pattern with rfl | hne
      · rw [stringsContains_of_contained (List.infix_refl _)] at hsc
        exact absurd hsc (by simp)
      · simp [hne]
    have h2 : ('/' :: p.pattern).isSuffixOf file = false := by
      cases hs : ('/' :: p.pattern).isSuffixOf file with
      | false => rfl
      | true =>
        have hsuf : ('/' :: p.pattern) <:+ file := by simpa using hs
        have : p.pattern <:+: file :=
          List.IsSuffix.isInfix ((List.suffix_cons '/' p.pattern).trans hsuf)
        rw [stringsContains_of_contained this] at hsc
        exact absurd hsc (by simp)
    have h3 : p.pattern.isSuffixOf file = false := by
      cases hs : p.pattern.isSuffixOf file with
      | false => rfl
      | true =>
        have hsuf : p.pattern <:+ file := by simpa using hs
        rw [stringsContains_of_contained hsuf.isInfix] at hsc
        exact absurd hsc (by simp)
    simp [hsc, h1, h2, h3]

theorem slashPattern_substring_rule_witness :
    matchPattern (chars "x/src/test.txt") (compileValid (chars "src/test.txt")) =
      .ok (MatchString (compileValid (chars "src/test.txt")).regexTokens
            (chars "x/src/test.txt")
          || stringsContains (chars "x/src/test.txt")
              (compileValid (chars "src/test.txt")).pattern) :=
  slashPattern_substring_rule (chars "x/src/test.txt")
    (compileValid (chars "src/test.txt")) rfl rfl rfl

/-!  Invalid-pattern lines. -/

lemma invalidLine_cases {s : List Char} (h : invalidLine s = true) :
    trimSpace s = ['!'] ∨ trimSpace s = ['/'] ∨ trimSpace s = ['!', '/'] := by
  simp only [invalidLine, Bool.or_eq_true, Bool.and_eq_true, decide_eq_true_eq] at h
  rcases h with h | ⟨hhead, hstrip⟩
  · exact Or.inl h
  · cases ht : trimSpace s with
    | nil =>
      rw [ht] at hhead
      rcases hhead with h1 | h1 <;> simp at h1
    | cons a t =>
      rw [ht] at hhead hstrip
      by_cases ha : a = '!'
      · subst ha
        rw [show (if ('!' :: t).head? = some '!' then ('!' :: t).tail else '!' :: t) = t
              from by simp] at hstrip
        cases t with
        | nil => exact Or.inl rfl
        | cons b t2 =>
          by_cases hb : (b :: t2).getLast? = some '/'
          · rw [if_pos hb] at hstrip
            have ht2 : t2 = [] := by
              simpa using congrArg List.length hstrip
            subst ht2
            simp at hb
            subst hb
            exact Or.inr (Or.inr rfl)
          · rw [if_neg hb] at hstrip
            simp at hstrip
      · rw [show (if (a :: t).head? = some '!' then (a :: t).tail else a :: t) = a :: t
              from by simp [ha]] at hstrip
        by_cases hl : (a :: t).getLast? = some '/'
        · rw [if_pos hl] at hstrip
          have ht2 : t = [] := by
            simpa using congrArg List.length hstrip
          subst ht2
          simp at hl
          subst hl
          exact Or.inr (Or.inl rfl)
        · rw [if_neg hl] at hstrip
          simp at hstrip

lemma buildIgnorePatternsGo_invalid :
    ∀ (patterns : List (List Char)) (i : Nat),
      (∃ s ∈ patterns, invalidLine s = true) →
      (buildIgnorePatternsGo i patterns).isOk = false := by
  intro patterns
  induction patterns with
  | nil =>
    intro i h
    obtain ⟨s, hs, _⟩ := h
    simp at hs
  | cons line rest ih =>
    intro i h
    obtain ⟨s, hs, hinv⟩ := h
    rcases List.mem_cons.mp hs with rfl | hmem
    · rcases invalidLine_cases hinv with h | h | h
      · simp [buildIgnorePatternsGo, compileValid, h, Except.isOk, Except.toBool]
      · simp [buildIgnorePatternsGo, compileValid, h, replaceBackslashes,
          Except.isOk, Except.toBool]
      · simp [buildIgnorePatternsGo, compileValid, h, replaceBackslashes,
          Except.isOk, Except.toBool]
    · have hrec := ih (i + 1) ⟨s, hmem, hinv⟩
      simp only [buildIgnorePatternsGo]
      split
      · exact hrec
      · split
        · rfl
        · split
          · rfl
          · cases hr : buildIgnorePatternsGo (i + 1) rest with
            | error e => rfl
            | ok ps =>
              rw [hr] at hrec
              simp [Except.isOk, Except.toBool] at hrec

/-- Claim C6: whenever some input line is (after trimming) exactly `!`, or
carries a leading `!` and/or a trailing `/` whose removal leaves nothing,
`NewPatternMatcher` fails: it returns an error and no matcher. -/
theorem invalidPattern_construction_fails :
    ∀ patterns : List (List Char),
      (∃ s ∈ patterns, invalidLine s = true) →
      ∃ e, NewPatternMatcher patterns = .error e := by
  intro patterns h
  have hok := buildIgnorePatternsGo_invalid patterns 0 h
  rw [NewPatternMatcher, buildIgnorePatterns]
  cases hb : buildIgnorePatternsGo 0 patterns with
  | error e => exact ⟨"failed to build ignore patterns: " ++ e, rfl⟩
  | ok ps =>
    rw [hb] at hok
    simp [Except.isOk, Except.toBool] at hok

theorem invalidPattern_construction_fails_witness :
    ∃ e, NewPatternMatcher [chars "a.txt", chars "!"] = .error e :=
  invalidPattern_construction_fails [chars "a.txt", chars "!"]
    ⟨chars "!", List.mem_cons_of_mem _ (List.mem_cons_self _ _), rfl⟩

/-!  Blank and comment lines. -/

lemma isRealLine_skip {line : List Char} (h : isRealLine line = false) :
    trimSpace line = [] ∨ (trimSpace line).head? = some '#' := by
  simpa [isRealLine, Decidable.or_iff_not_imp_left] using h

lemma isRealLine_keep {line : List Char} (h : isRealLine line = true) :
    ¬(trimSpace line = [] ∨ (trimSpace line).head? = some '#') := by
  simp [isRealLine] at h
  exact not_or.mpr h

lemma buildIgnorePatternsGo_ok_map :
    ∀ (patterns : List (List Char)) (i : Nat) (l : List ignorePattern),
      buildIgnorePatternsGo i patterns = .ok l →
      l = (patterns.filter isRealLine).map compileValid := by
  intro patterns
  induction patterns with
  | nil =>
    intro i l h
    simp only [buildIgnorePatternsGo, Except.ok.injEq] at h
    simp [← h]
  | cons line rest ih =>
    intro i l h
    simp only [buildIgnorePatternsGo] at h
    by_cases hreal : isRealLine line = true
    · rw [if_neg (isRealLine_keep hreal)] at h
      rw [List.filter_cons_of_pos hreal, List.map_cons]
      split at h
      · exact absurd h (by simp)
      · split at h
        · exact absurd h (by simp)
        · cases hr : buildIgnorePatternsGo (i + 1) rest with
          | error e =>
            rw [hr] at h
            exact absurd h (by simp)
          | ok ps =>
            rw [hr] at h
            simp only [Except.ok.injEq] at h
            rw [← h, ← ih (i + 1) ps hr]
    · have hfalse : isRealLine line = false := by
        cases hb : isRealLine line with
        | false => rfl
        | true => exact absurd hb hreal
      rw [if_pos (isRealLine_skip hfalse)] at h
      rw [List.filter_cons_of_neg (by simp [hfalse])]
      exact ih (i + 1) l h

lemma buildIgnorePatternsGo_isOk_filter :
    ∀ (patterns : List (List Char)) (i j : Nat),
      (buildIgnorePatternsGo i patterns).isOk =
        (buildIgnorePatternsGo j (patterns.filter isRealLine)).isOk := by
  intro patterns
  induction patterns with
  | nil => intro i j; rfl
  | cons line rest ih =>
    intro i j
    by_cases hreal : isRealLine line = true
    · rw [List.filter_cons_of_pos hreal]
      simp only [buildIgnorePatternsGo]
      rw [if_neg (isRealLine_keep hreal), if_neg (isRealLine_keep hreal)]
      by_cases hneg : ((trimSpace line).head? = some '!' ∧ (trimSpace line).length = 1)
      · rw [if_pos hneg, if_pos hneg]
        rfl
      · rw [if_neg hneg, if_neg hneg]
        by_cases hemp : (compileValid line).pattern = []
        · rw [if_pos hemp, if_pos hemp]
          rfl
        · rw [if_neg hemp, if_neg hemp]
          have hih := ih (i + 1) (j + 1)
          cases h1 : buildIgnorePatternsGo (i + 1) rest with
          | error e1 =>
            rw [h1] at hih
            cases h2 : buildIgnorePatternsGo (j + 1) (rest.filter isRealLine) with
            | error e2 => rfl
            | ok ps2 =>
              rw [h2] at hih
              exact absurd hih (by simp [Except.isOk, Except.toBool])
          | ok ps1 =>
            rw [h1] at hih
            cases h2 : buildIgnorePatternsGo (j + 1) (rest.filter isRealLine) with
            | error e2 =>
              rw [h2] at hih
              exact absurd hih (by simp [Except.isOk, Except.toBool])
            | ok ps2 => rfl
    · have hfalse : isRealLine line = false := by
        cases hb : isRealLine line with
        | false => rfl
        | true => exact absurd hb hreal
      rw [List.filter_cons_of_neg (by simp [hfalse])]
      have hstep : buildIgnorePatternsGo i (line :: rest) =
          buildIgnorePatternsGo (i + 1) rest := by
        simp only [buildIgnorePatternsGo]
        rw [if_pos (isRealLine_skip hfalse)]
      rw [hstep]
      exact ih (i + 1) j

/-- Claim C9: blank (whitespace-only) and `#`-comment lines never produce a
compiled pattern and never cause an error: whether compilation succeeds
depends only on the non-blank, non-comment lines, and on success the compiled
list is exactly one pattern per such line, in input order. -/
theorem blankComment_filtering :
    ∀ patterns : List (List Char),
      ((buildIgnorePatterns patterns).isOk =
        (buildIgnorePatterns (patterns.filter isRealLine)).isOk) ∧
      (∀ l, buildIgnorePatterns patterns = .ok l →
        l = (patterns.filter isRealLine).map compileValid) := by
  intro patterns
  exact ⟨buildIgnorePatternsGo_isOk_filter patterns 0 0,
    fun l h => buildIgnorePatternsGo_ok_map patterns 0 l h⟩

theorem blankComment_filtering_witness :
    ((buildIgnorePatterns [chars "a.txt", chars "  ", chars "# note", chars "b/"]).isOk =
      (buildIgnorePatterns
        ([chars "a.txt", chars "  ", chars "# note", chars "b/"].filter isRealLine)).isOk) ∧
    [compileValid (chars "a.txt"), compileValid (chars "b/")] =
      ([chars "a.txt", chars "  ", chars "# note", chars "b/"].filter isRealLine).map
        compileValid :=
  ⟨(blankComment_filtering [chars "a.txt", chars "  ", chars "# note", chars "b/"]).1,
    (blankComment_filtering [chars "a.txt", chars "  ", chars "# note", chars "b/"]).2
      [compileValid (chars "a.txt"), compileValid (chars "b/")] rfl⟩

/-!  Separator-free patterns. -/

lemma containsAnyWild_false {p : List Char} (h : containsAnyWild p = false) :
    '*' ∉ p ∧ '?' ∉ p := by
  simp only [containsAnyWild, List.any_eq_false] at h
  constructor
  · intro hm
    have := h '*' hm
    simp at this
  · intro hm
    have := h '?' hm
    simp at this

lemma buildRegex_all_lit_aux :
    ∀ (n : Nat) (p : List Char), p.length ≤ n →
      '*' ∉ p → '?' ∉ p →
      ∀ t ∈ BuildRegex p, ∃ c, t = GlobToken.lit c ∧ c ∈ p := by
  intro n
  induction n with
  | zero =>
    intro p hp _ _ t ht
    have hnil : p = [] := List.length_eq_zero.mp (Nat.le_zero.mp hp)
    subst hnil
    simp [BuildRegex] at ht
  | succ n ih =>
    intro p hp hstar hq t ht
    cases p with
    | nil => simp [BuildRegex] at ht
    | cons c r =>
      have hc1 : c ≠ '*' := fun hh => hstar (hh ▸ List.mem_cons_self c r)
      have hc2 : c ≠ '?' := fun hh => hq (hh ▸ List.mem_cons_self c r)
      have hr1 : '*' ∉ r := fun hh => hstar (List.mem_cons_of_mem c hh)
      have hr2 : '?' ∉ r := fun hh => hq (List.mem_cons_of_mem c hh)
      have hlen : r.length ≤ n := by
        simp at hp
        omega
      by_cases hbs : c = '\\'
      · subst hbs
        cases r with
        | nil =>
          rw [show BuildRegex ['\\'] = [GlobToken.lit '\\'] from rfl] at ht
          simp at ht
          exact ⟨'\\', ht, List.mem_cons_self _ _⟩
        | cons c2 r2 =>
          rw [show BuildRegex ('\\' :: c2 :: r2) = GlobToken.lit c2 :: BuildRegex r2
                from rfl] at ht
          rcases List.mem_cons.mp ht with rfl | ht2
          · exact ⟨c2, rfl, List.mem_cons_of_mem _ (List.mem_cons_self _ _)⟩
          · obtain ⟨d, hd, hmem⟩ := ih r2 (by simp at hp; omega)
              (fun hh => hstar (by simp [hh])) (fun hh => hq (by simp [hh])) t ht2
            exact ⟨d, hd, by simp [hmem]⟩
      · have hstep : BuildRegex (c :: r) = GlobToken.lit c :: BuildRegex r := by
          by_cases hdot : c = '.'
          · subst hdot; rfl
          · by_cases hdol : c = '$'
            · subst hdol; rfl
            · simp [BuildRegex, hc1, hc2, hbs, hdot, hdol]
        rw [hstep] at ht
        rcases List.mem_cons.mp ht with rfl | ht2
        · exact ⟨c, rfl, List.mem_cons_self _ _⟩
        · obtain ⟨d, hd, hmem⟩ := ih r hlen hr1 hr2 t ht2
          exact ⟨d, hd, List.mem_cons_of_mem _ hmem⟩

lemma lit_noSlash_match :
    ∀ (ts : List GlobToken),
      (∀ t ∈ ts, ∃ c, t = GlobToken.lit c ∧ c ≠ '/') →
      ∀ s, MatchString ts s = true → '/' ∉ s := by
  intro ts
  induction ts with
  | nil =>
    intro _ s h
    have hnil : s = [] := by simpa [MatchString, List.isEmpty_iff] using h
    simp [hnil]
  | cons t ts ih =>
    intro hts s h
    obtain ⟨c, rfl, hc⟩ := hts t (List.mem_cons_self _ _)
    cases s with
    | nil => simp [MatchString] at h
    | cons d r =>
      rw [show MatchString (GlobToken.lit c :: ts) (d :: r) =
            (c == d && MatchString ts r) from rfl] at h
      simp only [Bool.and_eq_true, beq_iff_eq] at h
      obtain ⟨hcd, hrec⟩ := h
      intro hmem
      rcases List.mem_cons.mp hmem with heq | hm2
      · exact hc (heq ▸ hcd)
      · exact ih (fun t2 ht2 => hts t2 (List.mem_cons_of_mem _ ht2)) r hrec hm2

lemma regexpParse_all_lit :
    ∀ (fuel : Nat) (ts : List GlobToken),
      (∀ t ∈ ts, ∃ c, t = GlobToken.lit c ∧ c ≠ '[') →
      regexpParse fuel ts = ts := by
  intro fuel
  induction fuel with
  | zero => intro ts _; rfl
  | succ fuel ih =>
    intro ts hts
    cases ts with
    | nil => rfl
    | cons t rest =>
      obtain ⟨c, rfl, hc⟩ := hts t (List.mem_cons_self _ _)
      have hne : GlobToken.lit c ≠ GlobToken.lit '[' := by simp [hc]
      simp only [regexpParse]
      rw [if_neg hne, ih rest (fun t2 ht2 => hts t2 (List.mem_cons_of_mem _ ht2))]

/-- Claim C4 (counterexample): the wildcard-free, separator-free pattern
`a[.-z]b` compiles to a character class whose range contains `/`, so its
regex matches the whole-segment suffix `a/b` of the path `x/a/b` — yet
`matchPattern` returns `false` on that path, because the suffix loop is gated
on `hasWildcard` and no single segment matches.  The claimed iff fails at
this input (its right side holds at suffix index 1, its left side does not);
the last conjunct shows the class really matches as a class.  -/
theorem separatorFree_class_counterexample :
    (compileValid (chars "a[.-z]b")).pattern.contains '/' = false ∧
    (compileValid (chars "a[.-z]b")).hasWildcard = false ∧
    1 < (splitSlash (chars "x/a/b")).length ∧
    MatchString (compileValid (chars "a[.-z]b")).regexTokens
      (joinSlash ((splitSlash (chars "x/a/b")).drop 1)) = true ∧
    matchPattern (chars "x/a/b") (compileValid (chars "a[.-z]b")) = .ok false ∧
    runMatcher [chars "a[.-z]b"] (chars "x/a/b") = .ok false ∧
    runMatcher [chars "a[.-z]b"] (chars "axb") = .ok true :=
  ⟨rfl, rfl, by decide, rfl, rfl, rfl, rfl⟩

/-- Claim C4 (amended, proved): a separator-free pattern that contains a
wildcard (`*` or `?`) or no character class matches at any depth:
`matchPattern` succeeds on a path exactly when the regex of the pattern
matches some single path segment or some contiguous whole-segment suffix of
the path.  (A wildcard-free pattern with a character class can break the
reverse direction, since a class may match `/` while the whole-segment
suffix loop runs only for wildcard patterns.)  Concretely `["*.log"]`
accepts both `app.log` and `src/deep/app.log`. -/
theorem separatorFree_matches_anyDepth :
    (∀ (p : ignorePattern) (file : List Char),
        p.regexTokens = compiledRegex p.pattern →
        p.hasWildcard = containsAnyWild p.pattern →
        p.isDirectory = false →
        p.pattern.contains '/' = false →
        (containsAnyWild p.pattern = true ∨ '[' ∉ p.pattern) →
        (matchPattern file p = .ok true ↔
          (∃ i, i < (splitSlash file).length ∧
              MatchString p.regexTokens (joinSlash ((splitSlash file).drop i)) = true) ∨
          (∃ seg, seg ∈ splitSlash file ∧ MatchString p.regexTokens seg = true))) ∧
    runMatcher [chars "*.log"] (chars "app.log") = .ok true ∧
    runMatcher [chars "*.log"] (chars "src/deep/app.log") = .ok true := by
  refine ⟨?_, rfl, rfl⟩
  intro p file htok hw hdir hns hcls
  have hnmem : '/' ∉ p.pattern := by simpa using hns
  have hiff : (matchPattern file p = Except.ok true) ↔ matchPatternB file p = true := by
    simp [matchPattern]
  rw [hiff]
  simp only [matchPatternB, hdir, hns, Bool.false_and, Bool.or_false, Bool.false_or,
    Bool.not_false, Bool.true_and, Bool.or_eq_true, Bool.and_eq_true, List.any_eq_true,
    List.mem_range, decide_eq_true_eq]
  constructor
  · rintro ((hfull | ⟨hwild, hloop⟩) | ⟨seg, hsegmem, hsegmatch⟩)
    · refine Or.inl ⟨0, List.length_pos.mpr (splitSlash_ne_nil file), ?_⟩
      rw [List.drop_zero, joinSlash_splitSlash]
      exact hfull
    · rcases hloop with ⟨i, hi, hm⟩ | ⟨i, hi, hi0, hm⟩
      · exact Or.inl ⟨i, hi, hm⟩
      · refine Or.inl ⟨0, List.length_pos.mpr (splitSlash_ne_nil file), ?_⟩
        rw [List.drop_zero, joinSlash_splitSlash]
        rw [joinSlash_take_drop (splitSlash file) i (Nat.pos_of_ne_zero hi0) hi,
          joinSlash_splitSlash] at hm
        exact hm
    · exact Or.inr ⟨seg, hsegmem, hsegmatch⟩
  · rintro (⟨i, hi, hm⟩ | ⟨seg, hsegmem, hsegmatch⟩)
    · rcases Nat.eq_zero_or_pos i with rfl | hi0
      · rw [List.drop_zero, joinSlash_splitSlash] at hm
        exact Or.inl (Or.inl hm)
      · cases hwild : p.hasWildcard with
        | true => exact Or.inl (Or.inr ⟨rfl, Or.inl ⟨i, hi, hm⟩⟩)
        | false =>
          have hpw : containsAnyWild p.pattern = false := by rw [← hw]; exact hwild
          have hnocls : '[' ∉ p.pattern := by
            rcases hcls with hcl | hcl
            · rw [hpw] at hcl
              exact absurd hcl (by simp)
            · exact hcl
          obtain ⟨hs1, hs2⟩ := containsAnyWild_false hpw
          have hlits := buildRegex_all_lit_aux p.pattern.length p.pattern le_rfl hs1 hs2
          have hid : compiledRegex p.pattern = BuildRegex p.pattern := by
            rw [compiledRegex]
            exact regexpParse_all_lit _ _ (fun t ht => by
              obtain ⟨c, hc, hcm⟩ := hlits t ht
              exact ⟨c, hc, fun hh => hnocls (hh ▸ hcm)⟩)
          have hnos : ∀ t ∈ p.regexTokens, ∃ c, t = GlobToken.lit c ∧ c ≠ '/' := by
            rw [htok, hid]
            intro t ht
            obtain ⟨c, hc, hcm⟩ := hlits t ht
            exact ⟨c, hc, fun hh => hnmem (hh ▸ hcm)⟩
          have hnoslash := lit_noSlash_match p.regexTokens hnos _ hm
          cases hdrop : (splitSlash file).drop i with
          | nil =>
            exfalso
            rw [hdrop] at hm
            have hle : (splitSlash file).length ≤ i := by
              have := congrArg List.length hdrop
              simp at this
              omega
            omega
          | cons x xs =>
            cases xs with
            | nil =>
              refine Or.inr ⟨x, List.drop_subset i _ ?_, ?_⟩
              · rw [hdrop]
                exact List.mem_cons_self _ _
              · rw [hdrop] at hm
                simpa [joinSlash] using hm
            | cons y ys =>
              exfalso
              apply hnoslash
              rw [hdrop]
              exact slash_mem_joinSlash (by simp)
    · exact Or.inr ⟨seg, hsegmem, hsegmatch⟩

theorem separatorFree_matches_anyDepth_witness :
    matchPattern (chars "src/deep/app.log") (compileValid (chars "*.log")) = .ok true ↔
      ((∃ i, i < (splitSlash (chars "src/deep/app.log")).length ∧
          MatchString (compileValid (chars "*.log")).regexTokens
            (joinSlash ((splitSlash (chars "src/deep/app.log")).drop i)) = true) ∨
       (∃ seg, seg ∈ splitSlash (chars "src/deep/app.log") ∧
          MatchString (compileValid (chars "*.log")).regexTokens seg = true)) :=
  separatorFree_matches_anyDepth.1 (compileValid (chars "*.log"))
    (chars "src/deep/app.log") rfl rfl rfl rfl (Or.inl rfl)
